import Mathlib

/-
Shallow embedding of the image-similarity core of `stanxii/image-similarity`
(src/image_similarity/image_similarity.rs).

Modelling conventions:
* `f64` values are modelled as exact rationals `ℚ`.  The single NaN-producing
  construction reachable in this code — the divisions `0.0/0.0` hidden in the
  mean computation (`mean /= (length*length - 1)` when `length = 1`) and in the
  scorer (`1.0 - dist / (len1 as f64)` when `len1 = 0`) — is modelled by
  `Option ℚ` with `none` standing for NaN; `divQ` performs that division.
  Every comparison `v < NaN` is false in IEEE arithmetic, which `ltNan`
  reproduces.
* Rust `String`s of the fingerprint alphabet are modelled as `List Char`.
* `usize` subtraction (`len1 - len2` in `hamming_distance`) uses release-mode
  wrapping semantics, written explicitly as `((2^64 + len1) - len2) % 2^64`.
* OpenCV's `Mat` of size `N×N` in row-major storage is modelled as its flat
  data array `buf : ℕ → ℚ` (flat index `r*N + c` holds matrix entry `(r,c)`),
  together with the bounds-checked accessor `Mat::at`, modelled by `atF`,
  which returns `Err` for an out-of-range flat index exactly as the opencv
  binding does.
* The image decoding / grayscale / resize / DCT front end is external to the
  arithmetic verified here: `compute_phash_core` takes the DCT output buffer
  (the `dct_img` of the source) and performs lines 193–217 of
  `compute_phash`; `similarity` takes the phash computation as an oracle
  parameter, which makes "fails before any image is processed" expressible.
-/

namespace ImageSimilarity

/-- Model of opencv's bounds-checked `Mat::at::<f64>(flat_index)` on a matrix
with `total` elements: `Ok` with the stored value in range, `Err` otherwise. -/
def atF (buf : ℕ → ℚ) (total : ℕ) (i : ℕ) : Except String ℚ :=
  if i < total then .ok (buf i) else .error "index out of range"

/-- Model of `f64` division as used in this code: `none` is NaN (`0.0/0.0`).
In the reachable cases the numerator is exactly `0` whenever the divisor is
`0`, so the IEEE infinities never arise. -/
def divQ (s d : ℚ) : Option ℚ := if d = 0 then none else some (s / d)

/-- Model of the IEEE comparison `value < mean` where `mean` may be NaN
(`none`): any comparison against NaN is false. -/
def ltNan (v : ℚ) (m : Option ℚ) : Bool :=
  match m with
  | none => false
  | some q => decide (v < q)

/-- One emitted fingerprint character, lines 209–213 of `compute_phash`:
`'0'` if the coefficient is strictly below the mean, else `'1'`. -/
def thresholdBit (v : ℚ) (m : Option ℚ) : Char :=
  if ltNan v m then '0' else '1'

/-- Lines 193–202 of `compute_phash`: accumulate
`dct_img.at(row + col * length)` over `row, col ∈ [0, dct_length)`, subtract
`dct_img.at(0)`, divide by `(length*length - 1)`.  Each `at` call is
bounds-checked and `?`-propagated. -/
def meanM (buf : ℕ → ℚ) (N K : ℕ) : Except String (Option ℚ) := do
  let s ← (List.range K).foldlM (fun acc row =>
    (List.range K).foldlM (fun acc2 col => do
      let v ← atF buf (N * N) (row + col * N)
      pure (acc2 + v)) acc) (0 : ℚ)
  let dc ← atF buf (N * N) 0
  pure (divQ (s - dc) ((N : ℚ) * N - 1))

/-- Lines 204–217 of `compute_phash`: build the phash string by thresholding
`dct_img.at(row + col * length)` against the mean, in `row`-outer /
`col`-inner loop order. -/
def phashBitsM (buf : ℕ → ℚ) (N K : ℕ) (mean : Option ℚ) : Except String (List Char) :=
  (List.range K).foldlM (fun acc row =>
    (List.range K).foldlM (fun acc2 col => do
      let v ← atF buf (N * N) (row + col * N)
      pure (acc2 ++ [thresholdBit v mean])) acc) []

/-- The fingerprint-extraction core of `compute_phash` (lines 193–217),
taking the DCT output buffer `buf` (flat, row-major, `N*N` elements). -/
def compute_phash_core (buf : ℕ → ℚ) (N K : ℕ) : Except String (List Char) := do
  let mean ← meanM buf N K
  phashBitsM buf N K mean

/-- Closed form of the threshold mean for the in-range case: the sum over
the loop indices of `buf (row + col*N)`, minus the DC term, divided by
`N²-1` (f64 division, `divQ`). -/
def meanQ (buf : ℕ → ℚ) (N K : ℕ) : Option ℚ :=
  divQ ((∑ row ∈ Finset.range K, ∑ col ∈ Finset.range K, buf (row + col * N)) - buf 0)
    ((N : ℚ) * N - 1)

/-- Closed form of the emitted fingerprint for the in-range case: one
thresholded character per `(row, col)` in the source's loop order
(`row`-outer, `col`-inner). -/
def phashPure (buf : ℕ → ℚ) (N K : ℕ) : List Char :=
  ((List.range K).map fun row =>
    (List.range K).map fun col => thresholdBit (buf (row + col * N)) (meanQ buf N K)).flatten

/-- Number of loop iterations of `hamming_distance` (lines 235–239) at which
the two characters differ: positions `i ∈ [0, a.len)` with
`a.chars().nth(i) != b.chars().nth(i)` (an `Option` comparison). -/
def countDiff (a b : List Char) : ℕ :=
  ((List.range a.length).filter fun i => decide (a[i]? ≠ b[i]?)).length

/-- `hamming_distance` (lines 226–246).  The source matches on
`(len1, len2, len1 - len2)`: the first arm fires when the wrapping `usize`
difference is `0` (given both lengths are below `2^64`, exactly when the
lengths are equal) and returns `1.0 - dist / (len1 as f64)`, which is NaN
(`none`) when `len1 = 0`; the remaining three arms all return `0.0`. -/
def hamming_distance (a b : List Char) : Option ℚ :=
  let len1 := a.length
  let len2 := b.length
  if ((2 ^ 64 + len1) - len2) % 2 ^ 64 = 0 then
    if len1 = 0 then none
    else some (1 - (countDiff a b : ℚ) / (len1 : ℚ))
  else some 0

/-- `similarity` (lines 18–28), with the per-image phash computation
abstracted as an oracle `computePhash` over an opaque image type: the two
parameter guards fire before the oracle is ever consulted.  The second
error message interpolates `length`, reproducing the source verbatim. -/
def similarity {Img : Type} (computePhash : Img → ℤ → ℤ → Except String (List Char))
    (img_a img_b : Img) (length dct_length : ℤ) : Except String (Option ℚ) :=
  if length ≤ 0 then
    .error ("length should be a positive number instead of " ++ toString length)
  else if dct_length ≤ 0 then
    .error ("dct_length should be a positive number instead of " ++ toString length)
  else do
    let pa ← computePhash img_a length dct_length
    let pb ← computePhash img_b length dct_length
    pure (hamming_distance pa pb)

/-- Value used by the sort comparator.  The source comparator
`b.0.partial_cmp(&a.0).unwrap()` panics when a score is NaN; that situation
cannot arise for pipeline-produced fingerprints (they are non-empty), and the
theorems below carry that hypothesis, so `none` is given a junk value here. -/
def scoreOf : Option ℚ → ℚ
  | none => 0
  | some q => q

/-- The comparator of `result.sort_by(|a, b| b.0.partial_cmp(&a.0).unwrap())`
as a "comes-no-later-than" boolean relation: descending by score. -/
def leDesc (x y : Option ℚ × String × String) : Bool :=
  decide (scoreOf y.1 ≤ scoreOf x.1)

/-- The pair-enumeration loops of `similarity_directory` (lines 54–60):
for `a_index ∈ [0, m-1)` and `b_index ∈ [a_index+1, m)`, score the two
fingerprints and record the two identifiers. -/
def scoredPairs (entries : List (String × List Char)) : List (Option ℚ × String × String) :=
  (List.range (entries.length - 1)).flatMap fun i =>
    (List.range' (i + 1) (entries.length - (i + 1))).map fun j =>
      (hamming_distance (entries.getD i ("", [])).2 (entries.getD j ("", [])).2,
       (entries.getD i ("", [])).1, (entries.getD j ("", [])).1)

/-- `similarity_directory` (lines 39–66) given the already-built corpus
(`compute_phash_directory` is external file I/O; this models the match on
`all_image_file.len()` and the ranking).  The sort is modelled by stable
merge sort, which agrees with Rust's stable `sort_by` for the total
preorder induced by the comparator. -/
def similarity_directory (entries : List (String × List Char)) :
    Option (List (Option ℚ × String × String)) :=
  match entries.length with
  | 0 => none
  | 1 => some [(some 1, (entries.getD 0 ("", [])).1, (entries.getD 0 ("", [])).1)]
  | _ + 2 => some ((scoredPairs entries).mergeSort leDesc)

/-- Concrete 2×2 DCT buffer (flat, row-major): matrix rows `[0, 100]`,
`[-100, 0]`.  Its top-left 2×2 block is not symmetric, which separates the
row-major read of the claim from the transposed read of the source. -/
def buf2 : ℕ → ℚ := fun i => [0, 100, -100, 0].getD i 0

end ImageSimilarity

namespace ImageSimilarity

@[simp] theorem ok_bind {ε α β : Type} (a : α) (f : α → Except ε β) :
    (Except.ok a >>= f : Except ε β) = f a := rfl

@[simp] theorem error_bind {ε α β : Type} (e : ε) (f : α → Except ε β) :
    (Except.error e >>= f : Except ε β) = Except.error e := rfl

@[simp] theorem except_pure_eq {ε α : Type} (a : α) :
    (pure a : Except ε α) = Except.ok a := rfl

theorem wrap_sub_eq_zero_iff {a b : ℕ} (ha : a < 2 ^ 64) (hb : b < 2 ^ 64) :
    ((2 ^ 64 + a) - b) % 2 ^ 64 = 0 ↔ a = b := by
  omega

theorem countDiff_le (a b : List Char) : countDiff a b ≤ a.length := by
  calc countDiff a b ≤ (List.range a.length).length := List.length_filter_le _ _
  _ = a.length := List.length_range a.length

theorem countDiff_self (a : List Char) : countDiff a a = 0 := by
  unfold countDiff
  rw [List.filter_eq_nil_iff.mpr]
  · rfl
  · intro i _
    simp

theorem countDiff_comm (a b : List Char) (h : a.length = b.length) :
    countDiff a b = countDiff b a := by
  unfold countDiff
  rw [← h]
  congr 1
  apply List.filter_congr
  intro i _
  simp only [decide_eq_decide]
  exact ne_comm

theorem countDiff_eq_zero_iff (a b : List Char) (h : a.length = b.length) :
    countDiff a b = 0 ↔ a = b := by
  constructor
  · intro h0
    have hnil : (List.range a.length).filter (fun i => decide (a[i]? ≠ b[i]?)) = [] :=
      List.length_eq_zero.mp h0
    have hall := List.filter_eq_nil_iff.mp hnil
    apply List.ext_getElem?
    intro n
    by_cases hn : n < a.length
    · have := hall n (List.mem_range.mpr hn)
      simpa using this
    · rw [List.getElem?_eq_none (by omega), List.getElem?_eq_none (by omega)]
  · intro he
    subst he
    exact countDiff_self a

end ImageSimilarity

namespace ImageSimilarity

theorem hamming_distance_of_length_eq (a b : List Char) (h : a.length = b.length) :
    hamming_distance a b =
      if a.length = 0 then none
      else some (1 - (countDiff a b : ℚ) / (a.length : ℚ)) := by
  simp only [hamming_distance]
  rw [if_pos (show ((2 ^ 64 + a.length) - b.length) % 2 ^ 64 = 0 by omega)]

theorem hamming_distance_of_length_ne (a b : List Char) (h : a.length ≠ b.length)
    (ha : a.length < 2 ^ 64) (hb : b.length < 2 ^ 64) :
    hamming_distance a b = some 0 := by
  simp only [hamming_distance]
  rw [if_neg fun hc => h ((wrap_sub_eq_zero_iff ha hb).mp hc)]

/-- C3: for fingerprint strings of unequal length the scorer returns `0.0`,
totally (no error, no abort); the length comparison is the wrapping `usize`
difference of the source, which is zero exactly for equal lengths below
`2^64`. -/
theorem score_zero_of_length_mismatch (a b : List Char)
    (h : a.length ≠ b.length) (ha : a.length < 2 ^ 64) (hb : b.length < 2 ^ 64) :
    hamming_distance a b = some 0 :=
  hamming_distance_of_length_ne a b h ha hb

/-- Witness for C3 at the concrete pair `"1"`, `""`. -/
theorem score_zero_of_length_mismatch_witness :
    (['1'] : List Char).length ≠ ([] : List Char).length ∧
      hamming_distance ['1'] [] = some 0 :=
  ⟨by decide, score_zero_of_length_mismatch ['1'] [] (by decide) (by decide) (by decide)⟩

/-- C4: on two empty fingerprints the first match arm of `hamming_distance`
fires (`len1 - len2 == 0`) and evaluates `1.0 - 0.0/0.0`, i.e. NaN — not the
`0.0` the specification requires; the `(0, _, _)` arm meant to catch empty
inputs is unreachable when both lengths are zero. -/
theorem score_empty_empty_is_nan :
    hamming_distance ([] : List Char) [] = none := by decide

/-- Counterexample to C5 as stated: at the concrete input `a = b = ""` the
scorer produces NaN (`none`), so no score in `[0,1]` is returned. -/
theorem score_unit_interval_counterexample :
    ¬ ∃ q : ℚ, hamming_distance ([] : List Char) [] = some q ∧ 0 ≤ q ∧ q ≤ 1 := by
  rintro ⟨q, hq, -⟩
  rw [show hamming_distance ([] : List Char) [] = none by decide] at hq
  exact Option.noConfusion hq

/-- C5 (amended): excluding the both-empty input (where the scorer yields
NaN), every score is a rational in `[0,1]`; for equal-length inputs the
score is `1` exactly for identical strings, and every non-empty fingerprint
scores `1` against itself. -/
theorem score_in_unit_interval :
    (∀ a b : List Char, a.length < 2 ^ 64 → b.length < 2 ^ 64 → ¬(a = [] ∧ b = []) →
      ∃ q : ℚ, hamming_distance a b = some q ∧ 0 ≤ q ∧ q ≤ 1 ∧
        (a.length = b.length → (q = 1 ↔ a = b))) ∧
    (∀ a : List Char, a ≠ [] → hamming_distance a a = some 1) := by
  have self : ∀ a : List Char, a ≠ [] → hamming_distance a a = some 1 := by
    intro a hne
    rw [hamming_distance_of_length_eq a a rfl,
      if_neg fun h0 => hne (List.length_eq_zero.mp h0), countDiff_self a]
    norm_num
  refine ⟨?_, self⟩
  intro a b ha hb hne
  by_cases hlen : a.length = b.length
  · have hA : a.length ≠ 0 := by
      intro h0
      exact hne ⟨List.length_eq_zero.mp h0, List.length_eq_zero.mp (hlen ▸ h0)⟩
    rw [hamming_distance_of_length_eq a b hlen, if_neg hA]
    have hlpos : (0 : ℚ) < (a.length : ℚ) := by
      exact_mod_cast Nat.pos_of_ne_zero hA
    have hdle : (countDiff a b : ℚ) ≤ (a.length : ℚ) := by
      exact_mod_cast countDiff_le a b
    have hd0 : (0 : ℚ) ≤ (countDiff a b : ℚ) / (a.length : ℚ) := by positivity
    have hd1 : (countDiff a b : ℚ) / (a.length : ℚ) ≤ 1 := (div_le_one hlpos).mpr hdle
    refine ⟨_, rfl, by linarith, by linarith, fun _ => ⟨?_, ?_⟩⟩
    · intro h1
      have hq0 : (countDiff a b : ℚ) / (a.length : ℚ) = 0 := by linarith
      have : (countDiff a b : ℚ) = 0 := by
        rcases div_eq_zero_iff.mp hq0 with h | h
        · exact h
        · exact absurd h (by positivity)
      exact (countDiff_eq_zero_iff a b hlen).mp (by exact_mod_cast this)
    · intro he
      subst he
      rw [countDiff_self a]
      norm_num
  · rw [hamming_distance_of_length_ne a b hlen ha hb]
    exact ⟨0, rfl, le_refl 0, zero_le_one, fun h => absurd h hlen⟩

/-- Witness for C5 (amended) at `"1"` vs `"0"` and at `"1"` vs itself. -/
theorem score_in_unit_interval_witness :
    (∃ q : ℚ, hamming_distance ['1'] ['0'] = some q ∧ 0 ≤ q ∧ q ≤ 1 ∧
        ((['1'] : List Char).length = (['0'] : List Char).length →
          (q = 1 ↔ (['1'] : List Char) = ['0']))) ∧
      hamming_distance ['1'] ['1'] = some 1 :=
  ⟨score_in_unit_interval.1 ['1'] ['0'] (by decide) (by decide) (by decide),
   score_in_unit_interval.2 ['1'] (by decide)⟩

/-- C6: for non-empty equal-length fingerprints the score is exactly
`1 - (number of differing positions) / length`. -/
theorem score_equal_length_formula (a b : List Char) (ha : a ≠ []) (hb : b ≠ [])
    (h : a.length = b.length) :
    hamming_distance a b = some (1 - (countDiff a b : ℚ) / (a.length : ℚ)) := by
  rw [hamming_distance_of_length_eq a b h,
    if_neg fun h0 => ha (List.length_eq_zero.mp h0)]

/-- Witness for C6 at the spec's example `"111"` vs `"101"`: one differing
position out of three, score `1 - 1/3 = 2/3`. -/
theorem score_equal_length_formula_witness :
    hamming_distance ['1', '1', '1'] ['1', '0', '1'] =
        some (1 - (countDiff ['1', '1', '1'] ['1', '0', '1'] : ℚ) /
          ((['1', '1', '1'] : List Char).length : ℚ)) ∧
      countDiff ['1', '1', '1'] ['1', '0', '1'] = 1 ∧
      (1 - (1 : ℚ) / 3 = 2 / 3) :=
  ⟨score_equal_length_formula ['1', '1', '1'] ['1', '0', '1']
      (by decide) (by decide) (by decide),
   by decide, by norm_num⟩

/-- C8: the scorer is symmetric in its two arguments. -/
theorem score_symmetric (a b : List Char)
    (ha : a.length < 2 ^ 64) (hb : b.length < 2 ^ 64) :
    hamming_distance a b = hamming_distance b a := by
  by_cases h : a.length = b.length
  · rw [hamming_distance_of_length_eq a b h, hamming_distance_of_length_eq b a h.symm,
      ← h, countDiff_comm a b h]
  · rw [hamming_distance_of_length_ne a b h ha hb,
      hamming_distance_of_length_ne b a (Ne.symm h) hb ha]

/-- Witness for C8 at the concrete pair `"1"`, `"01"`. -/
theorem score_symmetric_witness :
    hamming_distance ['1'] ['0', '1'] = hamming_distance ['0', '1'] ['1'] :=
  score_symmetric ['1'] ['0', '1'] (by decide) (by decide)

end ImageSimilarity

namespace ImageSimilarity

theorem foldlM_ok_of {ε α β : Type} (f : β → α → Except ε β) (g : β → α → β) :
    ∀ (l : List α), (∀ b a, a ∈ l → f b a = .ok (g b a)) → ∀ b : β,
      l.foldlM f b = .ok (l.foldl g b) := by
  intro l
  induction l with
  | nil => intro _ b; simp [List.foldlM_nil]
  | cons x xs ih =>
    intro h b
    rw [List.foldlM_cons, h b x (List.mem_cons_self x xs)]
    simp only [ok_bind]
    rw [List.foldl_cons]
    exact ih (fun b' a ha => h b' a (List.mem_cons_of_mem x ha)) (g b x)

theorem foldl_add_range (h : ℕ → ℚ) :
    ∀ (n : ℕ) (b : ℚ), (List.range n).foldl (fun acc i => acc + h i) b =
      b + ∑ i ∈ Finset.range n, h i := by
  intro n
  induction n with
  | zero => intro b; simp
  | succ m ih =>
    intro b
    rw [List.range_succ, List.foldl_append, ih b, List.foldl_cons, List.foldl_nil,
      Finset.sum_range_succ, add_assoc]

theorem foldl_append_range (s : ℕ → List Char) :
    ∀ (n : ℕ) (b : List Char), (List.range n).foldl (fun acc i => acc ++ s i) b =
      b ++ ((List.range n).map s).flatten := by
  intro n
  induction n with
  | zero => intro b; simp
  | succ m ih =>
    intro b
    rw [List.range_succ, List.foldl_append, ih b, List.foldl_cons, List.foldl_nil,
      List.map_append, List.flatten_append, List.append_assoc]
    simp

theorem index_lt_sq {N K row col : ℕ} (hKN : K ≤ N) (hrow : row < K) (hcol : col < K) :
    row + col * N < N * N :=
  calc row + col * N < N + col * N := Nat.add_lt_add_right (lt_of_lt_of_le hrow hKN) _
  _ = (col + 1) * N := by ring
  _ ≤ N * N := Nat.mul_le_mul_right N (lt_of_lt_of_le hcol hKN)

theorem meanM_ok (buf : ℕ → ℚ) (N K : ℕ) (hK0 : 0 < K) (hKN : K ≤ N) :
    meanM buf N K = .ok (meanQ buf N K) := by
  have hN : 0 < N := lt_of_lt_of_le hK0 hKN
  have step : ∀ (b : ℚ) (row : ℕ), row ∈ List.range K →
      ((List.range K).foldlM (fun acc2 col => do
        let v ← atF buf (N * N) (row + col * N)
        pure (acc2 + v)) b : Except String ℚ) =
        .ok (b + ∑ col ∈ Finset.range K, buf (row + col * N)) := by
    intro b row hrow
    have := foldlM_ok_of
      (fun acc2 col => do
        let v ← atF buf (N * N) (row + col * N)
        pure (acc2 + v))
      (fun acc2 col => acc2 + buf (row + col * N))
      (List.range K)
      (fun b' col hcol => by
        simp only [atF,
          if_pos (index_lt_sq hKN (List.mem_range.mp hrow) (List.mem_range.mp hcol)),
          ok_bind, except_pure_eq])
      b
    rw [this, foldl_add_range]
  have h1 : ((List.range K).foldlM (fun acc row =>
      (List.range K).foldlM (fun acc2 col => do
        let v ← atF buf (N * N) (row + col * N)
        pure (acc2 + v)) acc) (0 : ℚ) : Except String ℚ) =
      .ok (∑ row ∈ Finset.range K, ∑ col ∈ Finset.range K, buf (row + col * N)) := by
    have := foldlM_ok_of
      (fun acc row => (List.range K).foldlM (fun acc2 col => do
        let v ← atF buf (N * N) (row + col * N)
        pure (acc2 + v)) acc)
      (fun acc row => acc + ∑ col ∈ Finset.range K, buf (row + col * N))
      (List.range K)
      (fun b row hrow => step b row hrow)
      0
    rw [this, foldl_add_range, zero_add]
  unfold meanM
  rw [h1]
  simp only [ok_bind]
  rw [atF, if_pos (Nat.mul_pos hN hN)]
  simp only [ok_bind, except_pure_eq]
  rfl

theorem phashBitsM_ok (buf : ℕ → ℚ) (N K : ℕ) (m : Option ℚ) (hKN : K ≤ N) :
    phashBitsM buf N K m = .ok (((List.range K).map fun row =>
      (List.range K).map fun col => thresholdBit (buf (row + col * N)) m).flatten) := by
  have step : ∀ (b : List Char) (row : ℕ), row ∈ List.range K →
      ((List.range K).foldlM (fun acc2 col => do
        let v ← atF buf (N * N) (row + col * N)
        pure (acc2 ++ [thresholdBit v m])) b : Except String (List Char)) =
      .ok (b ++ ((List.range K).map fun col => thresholdBit (buf (row + col * N)) m)) := by
    intro b row hrow
    have := foldlM_ok_of
      (fun acc2 col => do
        let v ← atF buf (N * N) (row + col * N)
        pure (acc2 ++ [thresholdBit v m]))
      (fun acc2 col => acc2 ++ [thresholdBit (buf (row + col * N)) m])
      (List.range K)
      (fun b' col hcol => by
        simp only [atF,
          if_pos (index_lt_sq hKN (List.mem_range.mp hrow) (List.mem_range.mp hcol)),
          ok_bind, except_pure_eq])
      b
    rw [this]
    have h2 : ∀ (n : ℕ) (b' : List Char),
        (List.range n).foldl (fun acc2 col => acc2 ++ [thresholdBit (buf (row + col * N)) m]) b' =
        b' ++ (List.range n).map fun col => thresholdBit (buf (row + col * N)) m := by
      intro n
      induction n with
      | zero => intro b'; simp
      | succ k ih =>
        intro b'
        rw [List.range_succ, List.foldl_append, ih b', List.foldl_cons, List.foldl_nil,
          List.map_append, List.append_assoc]
        rfl
    rw [h2]
  unfold phashBitsM
  have := foldlM_ok_of
    (fun acc row => (List.range K).foldlM (fun acc2 col => do
      let v ← atF buf (N * N) (row + col * N)
      pure (acc2 ++ [thresholdBit v m])) acc)
    (fun acc row => acc ++ ((List.range K).map fun col => thresholdBit (buf (row + col * N)) m))
    (List.range K)
    (fun b row hrow => step b row hrow)
    []
  rw [this, foldl_append_range]
  rfl

theorem compute_phash_core_ok (buf : ℕ → ℚ) (N K : ℕ) (hK0 : 0 < K) (hKN : K ≤ N) :
    compute_phash_core buf N K = .ok (phashPure buf N K) := by
  unfold compute_phash_core
  rw [meanM_ok buf N K hK0 hKN]
  simp only [ok_bind]
  rw [phashBitsM_ok buf N K (meanQ buf N K) hKN]
  rfl

end ImageSimilarity

namespace ImageSimilarity

theorem flatten_getElem_blocks {β : Type} (K : ℕ) :
    ∀ (ls : List (List β)) (i j : ℕ), (∀ x ∈ ls, x.length = K) → i < ls.length → j < K →
      ls.flatten[i * K + j]? = ls[i]?.bind fun x => x[j]? := by
  intro ls
  induction ls with
  | nil => intro i j _ hi _; simp at hi
  | cons x xs ih =>
    intro i j hlen hi hj
    cases i with
    | zero =>
      simp only [List.flatten_cons, Nat.zero_mul, Nat.zero_add]
      rw [List.getElem?_append, if_pos (by rw [hlen x (List.mem_cons_self x xs)]; exact hj)]
      simp
    | succ k =>
      simp only [List.flatten_cons]
      have hxK : x.length = K := hlen x (List.mem_cons_self x xs)
      have hle : x.length ≤ (k + 1) * K + j := by
        rw [hxK]
        calc K = 1 * K := (Nat.one_mul K).symm
        _ ≤ (k + 1) * K := Nat.mul_le_mul_right K (by omega)
        _ ≤ (k + 1) * K + j := Nat.le_add_right _ _
      rw [List.getElem?_append_right hle]
      have harith : (k + 1) * K + j - x.length = k * K + j := by
        rw [hxK, Nat.succ_mul, Nat.add_right_comm, Nat.add_sub_cancel]
      rw [harith, List.getElem?_cons_succ]
      exact ih k j (fun y hy => hlen y (List.mem_cons_of_mem x hy)) (by simpa using hi) hj

theorem buf2_phash : compute_phash_core buf2 2 2 = .ok ['1', '0', '1', '1'] := by
  simp [compute_phash_core, meanM, phashBitsM, List.range_succ, atF, buf2, divQ, ltNan,
    thresholdBit]
  norm_num

theorem buf2_meanQ : meanQ buf2 2 2 = some 0 := by
  simp [meanQ, Finset.sum_range_succ, buf2, divQ]
  norm_num

/-- Counterexample to C1 as stated: on the concrete non-symmetric 2×2 buffer
`buf2` (matrix rows `[0, 100]`, `[-100, 0]`, mean `0`), the produced bit at
output position `0·K + 1` is `'0'`, but the thresholded value of the
coefficient at matrix position `(0, 1)` (which is `100 ≥ mean`) is `'1'`:
the code reads flat index `row + col·N`, the transposed sub-block. -/
theorem fingerprint_selection_counterexample :
    ¬ (∀ (buf : ℕ → ℚ) (N K row col : ℕ) (ph : List Char), 0 < K → K ≤ N →
        row < K → col < K → compute_phash_core buf N K = Except.ok ph →
        ph[row * K + col]? = some (thresholdBit (buf (row * N + col)) (meanQ buf N K))) := by
  intro h
  have h1 := h buf2 2 2 0 1 ['1', '0', '1', '1']
    (by decide) (by decide) (by decide) (by decide) buf2_phash
  rw [buf2_meanQ] at h1
  have h2 : thresholdBit (buf2 (0 * 2 + 1)) (some 0) = '1' := by decide
  rw [h2] at h1
  exact absurd h1 (by decide)

/-- C1 (amended): the fingerprint bit at row-major output position
`row·K + col` is the thresholded value of the transform coefficient at
matrix position `(col, row)` — flat index `col·N + row`, a transposed
sub-block read — bit `'0'` iff that coefficient is strictly less than the
mean, with position `(0,0)` itself included among the thresholded
coefficients. -/
theorem fingerprint_selection_transposed (buf : ℕ → ℚ) (N K row col : ℕ) (ph : List Char)
    (hK0 : 0 < K) (hKN : K ≤ N) (hrow : row < K) (hcol : col < K)
    (hph : compute_phash_core buf N K = Except.ok ph) :
    ph[row * K + col]? = some (thresholdBit (buf (col * N + row)) (meanQ buf N K)) := by
  have hok := compute_phash_core_ok buf N K hK0 hKN
  rw [hph] at hok
  have hph' : ph = phashPure buf N K := by
    injection hok
  subst hph'
  unfold phashPure
  rw [flatten_getElem_blocks K _ row col ?hlen ?hi hcol]
  case hlen =>
    intro x hx
    obtain ⟨r, _, rfl⟩ := List.mem_map.mp hx
    simp
  case hi => simp [hrow]
  rw [List.getElem?_map, List.getElem?_range hrow]
  simp only [Option.map_some', Option.some_bind]
  rw [List.getElem?_map, List.getElem?_range hcol]
  simp only [Option.map_some']
  rw [Nat.add_comm]

/-- Witness for C1 (amended) on the concrete buffer `buf2` at output
position `0·K + 1`, which holds the thresholded coefficient of matrix
position `(1, 0)` (flat index `1·2 + 0`). -/
theorem fingerprint_selection_transposed_witness :
    (['1', '0', '1', '1'] : List Char)[0 * 2 + 1]? =
      some (thresholdBit (buf2 (1 * 2 + 0)) (meanQ buf2 2 2)) :=
  fingerprint_selection_transposed buf2 2 2 0 1 ['1', '0', '1', '1']
    (by decide) (by decide) (by decide) (by decide) buf2_phash

/-- C2: the threshold mean is the sum of the K² selected coefficients (the
top-left K×K block, summed here in row-major matrix positions `(row, col)`,
flat `row·N + col`) minus the coefficient at `(0,0)`, divided — with f64
semantics, `divQ` — by `N² - 1`: the divisor uses the full transform size,
not the block size. -/
theorem mean_full_size_divisor (buf : ℕ → ℚ) (N K : ℕ) (hK0 : 0 < K) (hKN : K ≤ N) :
    meanM buf N K = .ok (divQ
      ((∑ row ∈ Finset.range K, ∑ col ∈ Finset.range K, buf (row * N + col)) - buf 0)
      ((N : ℚ) * N - 1)) := by
  rw [meanM_ok buf N K hK0 hKN]
  unfold meanQ
  congr 2
  rw [Finset.sum_comm]
  congr 1
  apply Finset.sum_congr rfl
  intro col _
  apply Finset.sum_congr rfl
  intro row _
  rw [Nat.add_comm]

/-- Witness for C2 on the concrete buffer `buf2` with `N = K = 2`. -/
theorem mean_full_size_divisor_witness :
    meanM buf2 2 2 = .ok (divQ
      ((∑ row ∈ Finset.range 2, ∑ col ∈ Finset.range 2, buf2 (row * 2 + col)) - buf2 0)
      ((2 : ℚ) * 2 - 1)) :=
  mean_full_size_divisor buf2 2 2 (by decide) (by decide)

end ImageSimilarity

namespace ImageSimilarity

theorem thresholdBit_cases (v : ℚ) (m : Option ℚ) :
    thresholdBit v m = '0' ∨ thresholdBit v m = '1' := by
  unfold thresholdBit
  split
  · exact Or.inl rfl
  · exact Or.inr rfl

theorem foldlM_grow {ε α : Type} (P : Char → Prop) (m : ℕ) :
    ∀ (l : List α) (f : List Char → α → Except ε (List Char)),
      (∀ acc a r, a ∈ l → f acc a = .ok r →
        r.length = acc.length + m ∧ ∀ c ∈ r, c ∈ acc ∨ P c) →
      ∀ (acc res : List Char), l.foldlM f acc = .ok res →
        res.length = acc.length + m * l.length ∧ ∀ c ∈ res, c ∈ acc ∨ P c := by
  intro l
  induction l with
  | nil =>
    intro f _ acc res hres
    simp only [List.foldlM_nil, except_pure_eq, Except.ok.injEq] at hres
    subst hres
    exact ⟨by simp, fun c hc => Or.inl hc⟩
  | cons x xs ih =>
    intro f hstep acc res hres
    rw [List.foldlM_cons] at hres
    cases hf : f acc x with
    | error e => rw [hf] at hres; simp at hres
    | ok mid =>
      rw [hf] at hres
      simp only [ok_bind] at hres
      obtain ⟨hl1, hm1⟩ := hstep acc x mid (List.mem_cons_self x xs) hf
      obtain ⟨hl2, hm2⟩ := ih f
        (fun acc' a r ha hr => hstep acc' a r (List.mem_cons_of_mem x ha) hr) mid res hres
      constructor
      · rw [hl2, hl1, List.length_cons]
        ring
      · intro c hc
        rcases hm2 c hc with hmem | hp
        · rcases hm1 c hmem with h | h
          · exact Or.inl h
          · exact Or.inr h
        · exact Or.inr hp

theorem foldlM_error_of {ε α β : Type} :
    ∀ (l : List α) (f : β → α → Except ε β) (a : α), a ∈ l →
      (∀ acc, ∃ e, f acc a = .error e) → ∀ b : β, ∃ e, l.foldlM f b = .error e := by
  intro l
  induction l with
  | nil => intro f a ha; simp at ha
  | cons x xs ih =>
    intro f a ha herr b
    rw [List.foldlM_cons]
    rcases List.mem_cons.mp ha with rfl | htl
    · obtain ⟨e, he⟩ := herr b
      rw [he]
      exact ⟨e, by simp⟩
    · cases hf : f b x with
      | error e => exact ⟨e, by simp⟩
      | ok mid =>
        obtain ⟨e, he⟩ := ih f a htl herr mid
        exact ⟨e, by simpa using he⟩

/-- C10: whenever the fingerprint extraction returns `Ok`, the fingerprint
has exactly `K·K` characters, each `'0'` or `'1'`; and whenever `K > N`
(the unchecked case), some flat-index access `row + col·N` is out of range
and the extraction returns an error instead of a malformed fingerprint. -/
theorem phash_shape_and_bounds :
    (∀ (buf : ℕ → ℚ) (N K : ℕ) (ph : List Char),
        compute_phash_core buf N K = .ok ph →
        ph.length = K * K ∧ ∀ c ∈ ph, c = '0' ∨ c = '1') ∧
    (∀ (buf : ℕ → ℚ) (N K : ℕ), N < K →
        ∃ msg, compute_phash_core buf N K = .error msg) := by
  constructor
  · intro buf N K ph hok
    unfold compute_phash_core at hok
    cases hm : meanM buf N K with
    | error e => rw [hm] at hok; simp at hok
    | ok mean =>
      rw [hm] at hok
      simp only [ok_bind] at hok
      unfold phashBitsM at hok
      have hinner : ∀ acc (row : ℕ) r, row ∈ List.range K →
          ((List.range K).foldlM (fun acc2 col => do
            let v ← atF buf (N * N) (row + col * N)
            pure (acc2 ++ [thresholdBit v mean])) acc : Except String (List Char)) = .ok r →
          r.length = acc.length + K ∧ ∀ c ∈ r, c ∈ acc ∨ (c = '0' ∨ c = '1') := by
        intro acc row r _ hr
        have := foldlM_grow (fun c => c = '0' ∨ c = '1') 1 (List.range K) _
          ?_ acc r hr
        · rw [Nat.one_mul, List.length_range] at this
          exact this
        · intro acc2 col r2 _ h2
          cases hat : atF buf (N * N) (row + col * N) with
          | error e => rw [hat] at h2; simp at h2
          | ok v =>
            rw [hat] at h2
            simp only [ok_bind, except_pure_eq, Except.ok.injEq] at h2
            subst h2
            refine ⟨by simp, fun c hc => ?_⟩
            rcases List.mem_append.mp hc with h | h
            · exact Or.inl h
            · rcases List.mem_singleton.mp h with rfl
              exact Or.inr (thresholdBit_cases v mean)
      have := foldlM_grow (fun c => c = '0' ∨ c = '1') K (List.range K) _
        (fun acc row r ha hr => hinner acc row r ha hr) [] ph hok
      rw [List.length_range, List.length_nil, Nat.zero_add] at this
      refine ⟨this.1, fun c hc => ?_⟩
      rcases this.2 c hc with h | h
      · simp at h
      · exact h
  · intro buf N K hNK
    have herr : ∃ e, ((List.range K).foldlM (fun acc row =>
        (List.range K).foldlM (fun acc2 col => do
          let v ← atF buf (N * N) (row + col * N)
          pure (acc2 + v)) acc) (0 : ℚ) : Except String ℚ) = .error e := by
      apply foldlM_error_of (List.range K) _ 0 (List.mem_range.mpr (by omega))
      intro acc
      apply foldlM_error_of (List.range K) _ N (List.mem_range.mpr hNK)
      intro acc2
      refine ⟨"index out of range", ?_⟩
      rw [show atF buf (N * N) (0 + N * N) = .error "index out of range" by
        rw [atF, if_neg (by rw [Nat.zero_add]; exact Nat.lt_irrefl _)]]
      rfl
    obtain ⟨e, he⟩ := herr
    refine ⟨e, ?_⟩
    unfold compute_phash_core meanM
    rw [he]
    rfl

/-- Witness for C10: the successful extraction on `buf2` (N = K = 2) has
shape `2·2` over `{'0','1'}`, and with `N = 1 < K = 2` the extraction
errors. -/
theorem phash_shape_and_bounds_witness :
    ((['1', '0', '1', '1'] : List Char).length = 2 * 2 ∧
        ∀ c ∈ (['1', '0', '1', '1'] : List Char), c = '0' ∨ c = '1') ∧
      ∃ msg, compute_phash_core buf2 1 2 = .error msg :=
  ⟨phash_shape_and_bounds.1 buf2 2 2 ['1', '0', '1', '1'] buf2_phash,
   phash_shape_and_bounds.2 buf2 1 2 (by decide)⟩

end ImageSimilarity

namespace ImageSimilarity

/-- C9: with `length ≤ 0` or `dct_length ≤ 0` the two-image similarity
entry point fails with the parameter error, and the result does not depend
on the phash computation at all — no image processing (grayscale, resize,
transform, fingerprint) is attempted, expressed by the result being
identical under every phash oracle. -/
theorem similarity_guards_parameters (Img : Type)
    (phashA phashB : Img → ℤ → ℤ → Except String (List Char)) (a b : Img)
    (length dct_length : ℤ) (h : length ≤ 0 ∨ dct_length ≤ 0) :
    (∃ msg, similarity phashA a b length dct_length = .error msg) ∧
      similarity phashA a b length dct_length = similarity phashB a b length dct_length := by
  by_cases hL : length ≤ 0
  · constructor
    · exact ⟨_, by rw [similarity, if_pos hL]⟩
    · rw [similarity, similarity, if_pos hL, if_pos hL]
  · have hK : dct_length ≤ 0 := h.resolve_left hL
    constructor
    · exact ⟨_, by rw [similarity, if_neg hL, if_pos hK]⟩
    · rw [similarity, similarity, if_neg hL, if_pos hK, if_neg hL, if_pos hK]

/-- Witness for C9 at `length = 0`, `dct_length = 16`, with two oracles
that differ observably. -/
theorem similarity_guards_parameters_witness :
    (∃ msg, similarity (fun _ _ _ => Except.ok ['1']) () () 0 16 = .error msg) ∧
      similarity (fun _ _ _ => Except.ok ['1']) () () 0 16 =
        similarity (fun _ _ _ => Except.error "decode failure") () () 0 16 :=
  similarity_guards_parameters Unit (fun _ _ _ => Except.ok ['1'])
    (fun _ _ _ => Except.error "decode failure") () () 0 16 (Or.inl (by decide))

end ImageSimilarity

namespace ImageSimilarity

theorem sum_map_range_sum (g : ℕ → ℕ) :
    ∀ n, ((List.range n).map g).sum = ∑ i ∈ Finset.range n, g i := by
  intro n
  induction n with
  | zero => simp
  | succ k ih =>
    rw [List.range_succ, List.map_append, List.sum_append, ih, Finset.sum_range_succ]
    simp

theorem sum_range_desc : ∀ n : ℕ, (∑ i ∈ Finset.range n, (n - i)) * 2 = n * (n + 1) := by
  intro n
  induction n with
  | zero => simp
  | succ k ih =>
    have e1 : ∑ i ∈ Finset.range k, (k + 1 - i) = ∑ i ∈ Finset.range k, ((k - i) + 1) := by
      apply Finset.sum_congr rfl
      intro i hi
      have := Finset.mem_range.mp hi
      omega
    have h1 : ∑ i ∈ Finset.range k, (k + 1 - i) = (∑ i ∈ Finset.range k, (k - i)) + k := by
      rw [e1, Finset.sum_add_distrib, Finset.sum_const, Finset.card_range, smul_eq_mul, mul_one]
    rw [Finset.sum_range_succ, h1, show k + 1 - k = 1 by omega]
    have h2 : ((∑ i ∈ Finset.range k, (k - i)) + k + 1) * 2 =
        (∑ i ∈ Finset.range k, (k - i)) * 2 + 2 * k + 2 := by ring
    rw [h2, ih]
    ring

theorem scoredPairs_length (entries : List (String × List Char)) :
    (scoredPairs entries).length * 2 = entries.length * (entries.length - 1) := by
  unfold scoredPairs
  rw [List.length_flatMap]
  have h1 : List.map (List.length ∘ fun i =>
      (List.range' (i + 1) (entries.length - (i + 1))).map fun j =>
        (hamming_distance (entries.getD i ("", [])).2 (entries.getD j ("", [])).2,
         (entries.getD i ("", [])).1, (entries.getD j ("", [])).1))
      (List.range (entries.length - 1)) =
      (List.range (entries.length - 1)).map fun i => entries.length - (i + 1) := by
    apply List.map_congr_left
    intro i _
    simp [List.length_range']
  rw [h1, sum_map_range_sum]
  have h2 : ∑ i ∈ Finset.range (entries.length - 1), (entries.length - (i + 1)) =
      ∑ i ∈ Finset.range (entries.length - 1), ((entries.length - 1) - i) :=
    Finset.sum_congr rfl fun i _ => by omega
  rw [h2]
  rcases Nat.eq_zero_or_pos entries.length with h | h
  · rw [h]
    simp
  · rw [sum_range_desc, Nat.sub_add_cancel h, Nat.mul_comm]

theorem hamming_isSome (a b : List Char) (ha : a ≠ []) :
    ∃ q, hamming_distance a b = some q := by
  simp only [hamming_distance]
  split
  · rw [if_neg fun h0 => ha (List.length_eq_zero.mp h0)]
    exact ⟨_, rfl⟩
  · exact ⟨0, rfl⟩

theorem scoredPairs_isSome (entries : List (String × List Char))
    (hne : ∀ e ∈ entries, e.2 ≠ []) :
    ∀ p ∈ scoredPairs entries, ∃ q, p.1 = some q := by
  intro p hp
  unfold scoredPairs at hp
  rw [List.mem_flatMap] at hp
  obtain ⟨i, hi, hp2⟩ := hp
  rw [List.mem_map] at hp2
  obtain ⟨j, _, rfl⟩ := hp2
  have hiL : i < entries.length := by
    have := List.mem_range.mp hi
    omega
  have hmem : entries.getD i ("", []) ∈ entries := by
    rw [List.getD_eq_getElem entries ("", []) hiL]
    exact List.getElem_mem hiL
  exact hamming_isSome _ _ (hne _ hmem)

theorem leDesc_trans (a b c : Option ℚ × String × String) :
    leDesc a b = true → leDesc b c = true → leDesc a c = true := by
  simp only [leDesc, decide_eq_true_eq]
  intro hab hbc
  exact le_trans hbc hab

theorem leDesc_total (a b : Option ℚ × String × String) :
    (leDesc a b || leDesc b a) = true := by
  simp only [leDesc, Bool.or_eq_true, decide_eq_true_eq]
  exact le_total _ _

/-- C7: self-comparison over a corpus of `m` entries: `m = 0` gives no
result (`none`, not an empty list); `m = 1` gives the single synthetic pair
`(1.0, id, id)` for the lone entry; `m ≥ 2` gives a list that is a
permutation of the once-each enumeration of unordered pairs `{i, j}`,
`i < j` (`scoredPairs`), has exactly `m(m-1)/2` elements, and is sorted
descending by score (all scores being proper rationals, given the corpus
invariant that fingerprints are non-empty — the source comparator would
panic otherwise). -/
theorem similarity_directory_cases :
    (∀ entries : List (String × List Char), entries.length = 0 →
        similarity_directory entries = none) ∧
    (∀ entries : List (String × List Char), entries.length = 1 →
        similarity_directory entries =
          some [(some 1, (entries.getD 0 ("", [])).1, (entries.getD 0 ("", [])).1)]) ∧
    (∀ entries : List (String × List Char), 2 ≤ entries.length →
        (∀ e ∈ entries, e.2 ≠ []) →
        ∃ l, similarity_directory entries = some l ∧
          l.length = entries.length * (entries.length - 1) / 2 ∧
          l.Perm (scoredPairs entries) ∧
          (∀ p ∈ l, ∃ q, p.1 = some q) ∧
          l.Pairwise fun x y => scoreOf y.1 ≤ scoreOf x.1) := by
  refine ⟨?_, ?_, ?_⟩
  · intro entries h
    simp [similarity_directory, h]
  · intro entries h
    simp [similarity_directory, h]
  · intro entries h hne
    obtain ⟨k, hk⟩ : ∃ k, entries.length = k + 2 := ⟨entries.length - 2, by omega⟩
    have hperm := List.mergeSort_perm (scoredPairs entries) leDesc
    refine ⟨(scoredPairs entries).mergeSort leDesc, ?_, ?_, hperm, ?_, ?_⟩
    · simp [similarity_directory, hk]
    · rw [hperm.length_eq, ← scoredPairs_length entries]
      omega
    · intro p hp
      exact scoredPairs_isSome entries hne p (hperm.mem_iff.mp hp)
    · have hs := List.sorted_mergeSort leDesc_trans leDesc_total (scoredPairs entries)
      exact hs.imp fun hab => by
        simpa only [leDesc, decide_eq_true_eq] using hab

/-- Witness for C7 on corpora of sizes 0, 1 and 3. -/
theorem similarity_directory_cases_witness :
    similarity_directory ([] : List (String × List Char)) = none ∧
      similarity_directory [("a", ['1'])] = some [(some 1, "a", "a")] ∧
      ∃ l, similarity_directory [("a", ['1', '1']), ("b", ['1', '0']), ("c", ['1', '1'])] =
          some l ∧ l.length = 3 ∧
          l.Perm (scoredPairs [("a", ['1', '1']), ("b", ['1', '0']), ("c", ['1', '1'])]) ∧
          l.Pairwise fun x y => scoreOf y.1 ≤ scoreOf x.1 := by
  refine ⟨similarity_directory_cases.1 [] rfl, ?_, ?_⟩
  · have h := similarity_directory_cases.2.1 [("a", ['1'])] rfl
    simpa using h
  · obtain ⟨l, h1, h2, h3, _, h5⟩ :=
      similarity_directory_cases.2.2 [("a", ['1', '1']), ("b", ['1', '0']), ("c", ['1', '1'])]
        (by decide) (by decide)
    exact ⟨l, h1, by simpa using h2, h3, h5⟩

end ImageSimilarity
